import Mathlib

/-!
# Verification of the task-hierarchy core (MERN todo backend)

Shallow embedding of `backend/src/controllers/todoController.js` and the
cascade-delete middleware of the `Todo` Mongoose model
(`todoSchema.pre('findOneAndDelete')`), together with proofs of the
spec-level properties about ownership scoping, the cycle guard, the update
allow-list, and cascading deletion.

Ids (Mongo ObjectIds) are modelled as `Nat`.  The Mongo collection is a
`List Record`.  The unbounded upward `while` loop of the cycle check and the
recursive delete hook are modelled with explicit fuel; a result of `none`
means the original JavaScript does not terminate on that input.
-/

namespace TodoApp

/-- An authenticated principal (`req.user`): an id plus a role string.
`isAdmin` in the controller tests `user.role === 'Admin'`. -/
structure Principal where
  id : Nat
  role : String
deriving DecidableEq, Repr

/-- `const isAdmin = (user) => user && user.role === 'Admin'` -/
def isAdmin (u : Principal) : Bool := u.role == "Admin"

/-- A document of the `Todo` collection (the `todoSchema` fields plus the
`timestamps: true` pair). -/
structure Record where
  id : Nat
  text : String
  completed : Bool
  owner : Nat
  dueDate : Option Nat
  tag : Option String
  team : Option Nat
  parentTask : Option Nat
  createdAt : Nat
  updatedAt : Nat
deriving DecidableEq, Repr

/-- The Todo collection. -/
abbrev Store := List Record

/-- The error taxonomy of the spec (HTTP codes are a transport concern). -/
inductive Err where
  | NotFound
  | InvalidUpdate
  | SelfParentError
  | CycleError
  | ValidationError
  | InvalidOwner
  | ParentNotFound
deriving DecidableEq, Repr

/-- The owner condition of a Mongo filter: `none` models a query with no
`owner` key (the admin path, where Mongoose strips the `undefined` value),
`some o` models `{ owner: o }`. -/
def ownerMatch (fo : Option Nat) (r : Record) : Bool :=
  match fo with
  | none => true
  | some o => r.owner == o

/-- The owner part of the delete filter built by `deleteTask`:
admins call `findByIdAndDelete(_id)` (no owner key), users call
`findOneAndDelete({ _id, owner: requester._id })`. -/
def ownerFilter (requester : Principal) : Option Nat :=
  if isAdmin requester then none else some requester.id

/-- `Todo.findOneAndDelete(filter)` together with the
`todoSchema.pre('findOneAndDelete')` cascade hook:

* read the children `{ parentTask: taskIdToDelete, owner: query.owner }`,
* delete each child with `findOneAndDelete({ _id: child._id, owner: query.owner })`
  (which re-runs the hook, hence the recursion),
* then delete the document matching the original filter.

Returns `none` when the recursion does not bottom out within `fuel`
(the JavaScript would recurse forever), otherwise
`some (deleted document?, ids removed in order, resulting store)`. -/
def fodDelete : Nat → Option Nat → Nat → Store → Option (Option Record × List Nat × Store)
  | 0, _, _, _ => none
  | fuel+1, fo, tid, s =>
    let children := s.filter fun r => r.parentTask == some tid && ownerMatch fo r
    match children.foldl
        (fun acc c => acc.bind fun p =>
          (fodDelete fuel fo c.id p.2).map fun q => (p.1 ++ q.2.1, q.2.2))
        (some (([] : List Nat), s)) with
    | none => none
    | some (tr, s1) =>
      match s1.find? (fun r => r.id == tid && ownerMatch fo r) with
      | some doc => some (some doc, tr ++ [tid], s1.eraseP fun r => r.id == tid && ownerMatch fo r)
      | none => some (none, tr, s1)

/-- The child loop of the hook, written as explicit recursion on the child
list (provably equal to the `foldl` inside `fodDelete`). -/
def fodChildren (fo : Option Nat) (fuel : Nat) : List Record → Store → Option (List Nat × Store)
  | [], st => some ([], st)
  | c :: cs, st =>
    match fodDelete fuel fo c.id st with
    | none => none
    | some (_, tr, st') => (fodChildren fo fuel cs st').map fun p => (tr ++ p.1, p.2)

/-- `deleteTask` (controller): role-scoped `findOneAndDelete`, 404 when the
filter matched no document.  The store in the result reflects that the
cascade hook runs (and deletes scoped children) even when the root itself
does not match the filter. -/
def deleteTask (requester : Principal) (_id : Nat) (fuel : Nat) (s : Store) :
    Option (Except Err Record × Store) :=
  match fodDelete fuel (ownerFilter requester) _id s with
  | none => none
  | some (none, _, s') => some (.error .NotFound, s')
  | some (some doc, _, s') => some (.ok doc, s')

/-- `getTaskById` (controller): admin fetches by id, user by
`{ _id, owner: requester._id }`; `none` is the 404 path. -/
def getTaskById (requester : Principal) (_id : Nat) (s : Store) : Option Record :=
  if isAdmin requester then s.find? fun r => r.id == _id
  else s.find? fun r => r.id == _id && r.owner == requester.id

/-- The sort key of `.sort({ parentTask: 1, createdAt: 1 })`: ascending
`parentTask` with null/absent first (BSON sorts null before ObjectIds),
then ascending `createdAt`. -/
def taskLe (a b : Record) : Bool :=
  match a.parentTask, b.parentTask with
  | none, none => a.createdAt ≤ b.createdAt
  | none, some _ => true
  | some _, none => false
  | some x, some y => x < y || (x == y && a.createdAt ≤ b.createdAt)

/-- `getTasks` (controller): admin runs `Todo.find({})`, user runs
`Todo.find({ owner: requester._id })`, both with
`.sort({ parentTask: 1, createdAt: 1 })`. -/
def getTasks (requester : Principal) (s : Store) : List Record :=
  if isAdmin requester then s.mergeSort taskLe
  else (s.filter fun r => r.owner == requester.id).mergeSort taskLe

/-- The request body of `createTask`: the fields the controller spreads into
the new document. -/
structure CreatePayload where
  text : String
  completed : Option Bool
  dueDate : Option Nat
  tag : Option String
  team : Option Nat
  parentTask : Option Nat
  owner : Option Nat
deriving DecidableEq, Repr

/-- `createTask` (controller): admins with a truthy `req.body.owner` assign
to that user after a `User.findById` existence check (400 when absent);
everyone else gets `owner = creator._id`.  The document is
`{ ...req.body, owner: ownerId }` and `save()` enforces the schema
(`text` required and nonempty; the whitespace-trim setter is not
modelled).  Note: no existence check is made on `parentTask`. -/
def createTask (users : List Nat) (creator : Principal) (b : CreatePayload)
    (newId now : Nat) (s : Store) : Except Err (Record × Store) :=
  let resolved : Except Err Nat :=
    if isAdmin creator && b.owner.isSome then
      match b.owner with
      | some o => if users.contains o then .ok o else .error .InvalidOwner
      | none => .ok creator.id
    else .ok creator.id
  match resolved with
  | .error e => .error e
  | .ok ownerId =>
    let r : Record :=
      { id := newId, text := b.text, completed := b.completed.getD false,
        owner := ownerId, dueDate := b.dueDate, tag := b.tag, team := b.team,
        parentTask := b.parentTask, createdAt := now, updatedAt := now }
    if r.text = "" then .error .ValidationError
    else .ok (r, s ++ [r])

/-- The request body of `updateTask`.  A key of the JSON body is either one
of the six schema fields (an `Option` field here is `some` exactly when the
key is present; for `dueDate`, `tag` and `parentTask` the inner `Option`
distinguishes a null/falsy value from a real one) or an unknown key,
collected in `extraKeys`. -/
structure UpdateBody where
  text : Option String
  completed : Option Bool
  dueDate : Option (Option Nat)
  tag : Option (Option String)
  parentTask : Option (Option Nat)
  owner : Option Nat
  extraKeys : List String
deriving DecidableEq, Repr

/-- `const allowedUpdates = ['text', 'completed', 'dueDate', 'tag', 'parentTask', 'owner']` -/
def allowedUpdates : List String :=
  ["text", "completed", "dueDate", "tag", "parentTask", "owner"]

/-- `Object.keys(req.body)` for an `UpdateBody`. -/
def bodyKeys (b : UpdateBody) : List String :=
  (if b.text.isSome then ["text"] else []) ++
  (if b.completed.isSome then ["completed"] else []) ++
  (if b.dueDate.isSome then ["dueDate"] else []) ++
  (if b.tag.isSome then ["tag"] else []) ++
  (if b.parentTask.isSome then ["parentTask"] else []) ++
  (if b.owner.isSome then ["owner"] else []) ++ b.extraKeys

/-- `updates.every((update) => allowedUpdates.includes(update))` -/
def isValidOperation (b : UpdateBody) : Bool :=
  (bodyKeys b).all fun k => allowedUpdates.contains k

/-- The role-scoped fetch inside `updateTask` (admin `findById`, user
`findOne({ _id, owner })`). -/
def fetchTask (requester : Principal) (_id : Nat) (s : Store) : Option Record :=
  if isAdmin requester then s.find? fun r => r.id == _id
  else s.find? fun r => r.id == _id && r.owner == requester.id

/-- The `updates.forEach` loop: assign each present body field onto the
document, except that `owner` is skipped (with only a `console.warn`) when
the requester is not an admin. -/
def applyUpdates (requester : Principal) (b : UpdateBody) (t : Record) : Record :=
  { t with
    text := b.text.getD t.text
    completed := b.completed.getD t.completed
    dueDate := b.dueDate.getD t.dueDate
    tag := b.tag.getD t.tag
    parentTask := b.parentTask.getD t.parentTask
    owner := if isAdmin requester then b.owner.getD t.owner else t.owner }

/-- `task.save()` on the mutated document: schema validation (`text`
required and nonempty) and in-place replacement in the collection. -/
def replaceById (s : Store) (i : Nat) (t' : Record) : Store :=
  s.map fun r => if r.id == i then t' else r

/-- The upward walk of the cycle check in `updateTask`:

    let current = await Todo.findById(potentialParentId);
    while (current) {
      if (current._id.toString() === task._id.toString()) { CycleError }
      current = current.parentTask ? await Todo.findById(current.parentTask) : null;
    }

`some true` = the walk revisited `task._id` (CycleError), `some false` = the
walk ended at a document with no parent (or a dangling reference), `none` =
`fuel` steps were not enough (the loop has no bound in the source). -/
def walkUp (s : Store) (taskId : Nat) : Nat → Option Record → Option Bool
  | _, none => some false
  | 0, some _ => none
  | fuel+1, some c =>
    if c.id = taskId then some true
    else walkUp s taskId fuel
      (match c.parentTask with
       | some p => s.find? fun r => r.id == p
       | none => none)

/-- The tail of `updateTask` after the parent-link validation: apply the
body, validate, save. -/
def saveUpdated (requester : Principal) (b : UpdateBody) (task : Record) (s : Store) :
    Except Err Record × Store :=
  if (applyUpdates requester b task).text = "" then (.error .ValidationError, s)
  else (.ok (applyUpdates requester b task),
        replaceById s task.id (applyUpdates requester b task))

/-- `updateTask` (controller): allow-list check, role-scoped fetch,
self-parent check and upward cycle walk (both only when
`req.body.parentTask` is truthy), then field application (dropping `owner`
for non-admins) and `save()`.  `none` models a walk that never terminates. -/
def updateTask (requester : Principal) (_id : Nat) (b : UpdateBody) (fuel : Nat)
    (s : Store) : Option (Except Err Record × Store) :=
  if ¬ isValidOperation b then some (.error .InvalidUpdate, s)
  else
    match fetchTask requester _id s with
    | none => some (.error .NotFound, s)
    | some task =>
      match b.parentTask with
      | some (some p) =>
        if p = task.id then some (.error .SelfParentError, s)
        else
          match walkUp s task.id fuel (s.find? fun r => r.id == p) with
          | none => none
          | some true => some (.error .CycleError, s)
          | some false => some (saveUpdated requester b task s)
      | _ => some (saveUpdated requester b task s)

/-- The scoped child relation used by the cascade: `childStep fo s a b`
holds when the store holds a record `b` whose `parentTask` is `a` and which
matches the owner filter — exactly the records returned by
`find({ parentTask: a, owner: fo })`. -/
def childStep (fo : Option Nat) (s : Store) (a b : Nat) : Prop :=
  ∃ r, r ∈ s ∧ r.id = b ∧ r.parentTask = some a ∧ ownerMatch fo r = true

/-- `cascades fo s tid x`: the id `x` belongs to the owner-scoped descendant
closure of `tid` (including `tid` itself when a matching record exists) —
the set of documents the delete cascade removes. -/
def cascades (fo : Option Nat) (s : Store) (tid x : Nat) : Prop :=
  Relation.ReflTransGen (childStep fo s) tid x ∧
    ∃ r, r ∈ s ∧ r.id = x ∧ ownerMatch fo r = true

/-- The store has no two documents with the same id. -/
def nodupIds (s : Store) : Prop := (s.map Record.id).Nodup

/-- `rankOk rank r`: the parent pointer of `r` strictly decreases `rank`.
A store all of whose records satisfy this for some `rank` has acyclic
parent links. -/
def rankOk (rank : Nat → Nat) (r : Record) : Bool :=
  match r.parentTask with
  | none => true
  | some p => rank p < rank r.id

/-- All records of the store admit the decreasing rank. -/
def rankHyp (rank : Nat → Nat) (s : Store) : Prop := ∀ r ∈ s, rankOk rank r = true

/-- Scoped descendant reachability: `reaches fo s a b` iff a chain of
scoped child steps leads downward from `a` to `b`. -/
def reaches (fo : Option Nat) (s : Store) : Nat → Nat → Prop :=
  Relation.ReflTransGen (childStep fo s)

/-- The filter predicate "not among the removed ids". -/
def notRemoved (tr : List Nat) (r : Record) : Bool := decide (r.id ∉ tr)

/-- Full characterisation of one `findOneAndDelete` (hook included) run:
the new store is the old one minus exactly the ids of the trace, the trace
is exactly the owner-scoped cascade closure of `tid`, the trace never
deletes an ancestor before one of its descendants, and the returned
document is the one matching the original filter. -/
def NodeSpec (fo : Option Nat) (tid : Nat) (st : Store) (doc : Option Record)
    (tr : List Nat) (st' : Store) : Prop :=
  st' = st.filter (notRemoved tr)
  ∧ (∀ x, x ∈ tr ↔ cascades fo st tid x)
  ∧ tr.Pairwise (fun x y => ¬ (reaches fo st x y ∧ x ≠ y))
  ∧ doc = st.find? fun r => r.id == tid && ownerMatch fo r

/-- The same characterisation for the hook's child loop. -/
def LoopSpec (fo : Option Nat) (cs : List Record) (st : Store)
    (tr : List Nat) (st' : Store) : Prop :=
  st' = st.filter (notRemoved tr)
  ∧ (∀ x, x ∈ tr ↔ ∃ c ∈ cs, cascades fo st c.id x)
  ∧ tr.Pairwise (fun x y => ¬ (reaches fo st x y ∧ x ≠ y))

/-! ## Basic lemmas about the scoped fetch and the allow-list -/

theorem fetchTask_mem_id {requester : Principal} {_id : Nat} {s : Store} {task : Record}
    (h : fetchTask requester _id s = some task) : task ∈ s ∧ task.id = _id := by
  unfold fetchTask at h
  split at h
  · exact ⟨List.mem_of_find?_eq_some h, by
      have := List.find?_some h; simpa using this⟩
  · refine ⟨List.mem_of_find?_eq_some h, ?_⟩
    have := List.find?_some h
    simp only [Bool.and_eq_true, beq_iff_eq] at this
    exact this.1

theorem isValidOperation_of_extra_nil {b : UpdateBody} (h : b.extraKeys = []) :
    isValidOperation b = true := by
  simp only [isValidOperation, bodyKeys, h, List.append_nil, List.all_append]
  split_ifs <;> decide

theorem isValidOperation_false_of_extra {b : UpdateBody} {k : String}
    (hk : k ∈ b.extraKeys) (hout : allowedUpdates.contains k = false) :
    isValidOperation b = false := by
  cases hv : isValidOperation b with
  | false => rfl
  | true =>
    exfalso
    have hmem : k ∈ bodyKeys b := by
      unfold bodyKeys
      simp only [List.mem_append]
      exact Or.inr hk
    have := List.all_eq_true.mp hv k hmem
    rw [hout] at this
    exact Bool.false_ne_true this

/-! ## C6, C7, C9, C10, C8 -/

/-- C6: a non-administrator creating a task with an `owner` in the payload
gets a record owned by the creator, never the supplied owner: the
controller overrides the spread body with `owner: ownerId` and picks
`ownerId = creator._id` whenever the creator is not an admin. -/
theorem C6_owner_escalation_blocked (users : List Nat) (creator : Principal)
    (b : CreatePayload) (newId now : Nat) (s : Store) (r : Record) (s' : Store)
    (hadm : isAdmin creator = false)
    (hok : createTask users creator b newId now s = .ok (r, s')) :
    r.owner = creator.id := by
  unfold createTask at hok
  rw [hadm] at hok
  simp only [Bool.false_and, Bool.false_eq_true, if_false] at hok
  split at hok
  · exact absurd hok (by simp)
  · rw [Except.ok.injEq, Prod.mk.injEq] at hok
    rw [← hok.1]

/-- Witness for C6 at a concrete input: user 10 tries to assign owner 20,
the created record is owned by 10. -/
theorem C6_owner_escalation_blocked_witness :
    isAdmin ⟨10, "User"⟩ = false ∧
    createTask [10, 20] ⟨10, "User"⟩
        ⟨"write tests", none, none, none, none, none, some 20⟩ 1 0 []
      = .ok (⟨1, "write tests", false, 10, none, none, none, none, 0, 0⟩,
             [⟨1, "write tests", false, 10, none, none, none, none, 0, 0⟩]) ∧
    (⟨1, "write tests", false, 10, none, none, none, none, 0, 0⟩ : Record).owner = 10 :=
  ⟨by decide, by rfl,
    C6_owner_escalation_blocked [10, 20] ⟨10, "User"⟩
      ⟨"write tests", none, none, none, none, none, some 20⟩ 1 0 []
      ⟨1, "write tests", false, 10, none, none, none, none, 0, 0⟩
      [⟨1, "write tests", false, 10, none, none, none, none, 0, 0⟩]
      (by decide) rfl⟩

/-- C7: any update body containing a key outside the allow-list is rejected
wholesale with `InvalidUpdate` before the record is even fetched; the store
is returned unchanged (no partial application). -/
theorem C7_allowlist_enforced (requester : Principal) (_id : Nat) (b : UpdateBody)
    (fuel : Nat) (s : Store) (k : String)
    (hk : k ∈ b.extraKeys) (hout : allowedUpdates.contains k = false) :
    updateTask requester _id b fuel s = some (.error .InvalidUpdate, s) := by
  have hval := isValidOperation_false_of_extra hk hout
  unfold updateTask
  rw [hval]
  simp

/-- Witness for C7: `update(id, {owner: x, notAField: y})` is rejected with
`InvalidUpdate` and the store is untouched. -/
theorem C7_allowlist_enforced_witness :
    ("notAField" ∈ (UpdateBody.mk none none none none none (some 20) ["notAField"]).extraKeys) ∧
    updateTask ⟨9, "Admin"⟩ 1 ⟨none, none, none, none, none, some 20, ["notAField"]⟩ 5
        [⟨1, "plan", false, 7, none, none, none, none, 0, 0⟩]
      = some (.error .InvalidUpdate, [⟨1, "plan", false, 7, none, none, none, none, 0, 0⟩]) :=
  ⟨by decide,
    C7_allowlist_enforced ⟨9, "Admin"⟩ 1 ⟨none, none, none, none, none, some 20, ["notAField"]⟩ 5
      [⟨1, "plan", false, 7, none, none, none, none, 0, 0⟩] "notAField"
      (by decide) (by decide)⟩

/-- C9: updating a task so that it becomes its own parent always fails with
`SelfParentError` (the check `req.body.parentTask.toString() ===
task._id.toString()` fires before anything is applied) and the store is
unchanged. -/
theorem C9_no_self_parent (requester : Principal) (_id : Nat) (b : UpdateBody)
    (fuel : Nat) (s : Store) (task : Record)
    (hval : isValidOperation b = true)
    (hfetch : fetchTask requester _id s = some task)
    (hpt : b.parentTask = some (some _id)) :
    updateTask requester _id b fuel s = some (.error .SelfParentError, s) := by
  obtain ⟨-, hid⟩ := fetchTask_mem_id hfetch
  unfold updateTask
  rw [hval, hfetch, hpt]
  simp [hid]

/-- Witness for C9 at a concrete input: owner 7 sets task 1 as its own
parent. -/
theorem C9_no_self_parent_witness :
    updateTask ⟨7, "User"⟩ 1 ⟨none, none, none, none, some (some 1), none, []⟩ 5
        [⟨1, "plan", false, 7, none, none, none, none, 0, 0⟩]
      = some (.error .SelfParentError, [⟨1, "plan", false, 7, none, none, none, none, 0, 0⟩]) :=
  C9_no_self_parent ⟨7, "User"⟩ 1 ⟨none, none, none, none, some (some 1), none, []⟩ 5
    [⟨1, "plan", false, 7, none, none, none, none, 0, 0⟩]
    ⟨1, "plan", false, 7, none, none, none, none, 0, 0⟩
    (by decide) (by decide) (by decide)

/-- When the parent-link checks pass (or are skipped because the submitted
`parentTask` is absent or falsy), `updateTask` reaches `save()`. -/
theorem updateTask_saves (requester : Principal) (_id : Nat) (b : UpdateBody)
    (fuel : Nat) (s : Store) (task : Record)
    (hval : isValidOperation b = true)
    (hfetch : fetchTask requester _id s = some task)
    (hpar : b.parentTask = none ∨ b.parentTask = some none ∨
      ∃ p, b.parentTask = some (some p) ∧ p ≠ task.id ∧
        walkUp s task.id fuel (s.find? fun r => r.id == p) = some false) :
    updateTask requester _id b fuel s = some (saveUpdated requester b task s) := by
  unfold updateTask
  rcases hpar with hpt | hpt | ⟨p, hpt, hne, hwalk⟩
  · simp [hval, hfetch, hpt]
  · simp [hval, hfetch, hpt]
  · simp [hval, hfetch, hpt, hne, hwalk]

/-- `save()` succeeds whenever the applied document still has nonempty
text. -/
theorem saveUpdated_ok (requester : Principal) (b : UpdateBody) (task : Record) (s : Store)
    (htext : (applyUpdates requester b task).text ≠ "") :
    saveUpdated requester b task s
      = (.ok (applyUpdates requester b task),
         replaceById s task.id (applyUpdates requester b task)) := by
  unfold saveUpdated
  rw [if_neg htext]

/-- C10: when the submitted `parentTask` is null/falsy, both truthiness
guards `if (req.body.parentTask && ...)` and `if (req.body.parentTask)`
are skipped, so no self-parent or cycle validation runs (the result does
not depend on the walk fuel) and the update applies, clearing the parent
pointer. -/
theorem C10_falsy_parent_skips_guard (requester : Principal) (_id : Nat) (b : UpdateBody)
    (fuel : Nat) (s : Store) (task : Record)
    (hval : isValidOperation b = true)
    (hfetch : fetchTask requester _id s = some task)
    (hpt : b.parentTask = some none)
    (htext : (applyUpdates requester b task).text ≠ "") :
    updateTask requester _id b fuel s
      = some (.ok (applyUpdates requester b task),
              replaceById s task.id (applyUpdates requester b task))
    ∧ (applyUpdates requester b task).parentTask = none := by
  constructor
  · rw [updateTask_saves requester _id b fuel s task hval hfetch (Or.inr (Or.inl hpt)),
        saveUpdated_ok requester b task s htext]
  · simp [applyUpdates, hpt]

/-- Witness for C10: clearing the parent of task 2 succeeds with any fuel
(here 0: the walk is never consulted). -/
theorem C10_falsy_parent_skips_guard_witness :
    updateTask ⟨7, "User"⟩ 2 ⟨none, none, none, none, some none, none, []⟩ 0
        [⟨1, "plan", false, 7, none, none, none, none, 0, 0⟩,
         ⟨2, "sub", false, 7, none, none, none, some 1, 1, 1⟩]
      = some (.ok ⟨2, "sub", false, 7, none, none, none, none, 1, 1⟩,
              [⟨1, "plan", false, 7, none, none, none, none, 0, 0⟩,
               ⟨2, "sub", false, 7, none, none, none, none, 1, 1⟩]) :=
  (C10_falsy_parent_skips_guard ⟨7, "User"⟩ 2 ⟨none, none, none, none, some none, none, []⟩ 0
    [⟨1, "plan", false, 7, none, none, none, none, 0, 0⟩,
     ⟨2, "sub", false, 7, none, none, none, some 1, 1, 1⟩]
    ⟨2, "sub", false, 7, none, none, none, some 1, 1, 1⟩
    (by decide) (by decide) (by decide) (by decide)).1

/-- C8: for a non-administrator, an allow-listed update that includes
`owner` does not fail: the `updates.forEach` loop skips the `owner`
assignment (only logging a warning) and applies every other submitted
field; the saved record keeps its original owner. -/
theorem C8_owner_silently_dropped (requester : Principal) (_id : Nat) (b : UpdateBody)
    (fuel : Nat) (s : Store) (task : Record)
    (hadm : isAdmin requester = false)
    (hextra : b.extraKeys = [])
    (_hown : b.owner.isSome = true)
    (hfetch : fetchTask requester _id s = some task)
    (hpar : b.parentTask = none ∨ b.parentTask = some none ∨
      ∃ p, b.parentTask = some (some p) ∧ p ≠ task.id ∧
        walkUp s task.id fuel (s.find? fun r => r.id == p) = some false)
    (htext : (applyUpdates requester b task).text ≠ "") :
    updateTask requester _id b fuel s
      = some (.ok (applyUpdates requester b task),
              replaceById s task.id (applyUpdates requester b task))
    ∧ (applyUpdates requester b task).owner = task.owner
    ∧ (applyUpdates requester b task).text = b.text.getD task.text
    ∧ (applyUpdates requester b task).completed = b.completed.getD task.completed
    ∧ (applyUpdates requester b task).dueDate = b.dueDate.getD task.dueDate
    ∧ (applyUpdates requester b task).tag = b.tag.getD task.tag
    ∧ (applyUpdates requester b task).parentTask = b.parentTask.getD task.parentTask := by
  have hval := isValidOperation_of_extra_nil hextra
  refine ⟨?_, by simp [applyUpdates, hadm], by simp [applyUpdates], by simp [applyUpdates],
    by simp [applyUpdates], by simp [applyUpdates], by simp [applyUpdates]⟩
  rw [updateTask_saves requester _id b fuel s task hval hfetch hpar,
      saveUpdated_ok requester b task s htext]

/-- Witness for C8: user 7 submits `{completed: true, owner: 20}` on their
task; the update succeeds, `completed` is applied, `owner` stays 7. -/
theorem C8_owner_silently_dropped_witness :
    updateTask ⟨7, "User"⟩ 1 ⟨none, some true, none, none, none, some 20, []⟩ 5
        [⟨1, "plan", false, 7, none, none, none, none, 0, 0⟩]
      = some (.ok ⟨1, "plan", true, 7, none, none, none, none, 0, 0⟩,
              [⟨1, "plan", true, 7, none, none, none, none, 0, 0⟩])
    ∧ (⟨1, "plan", true, 7, none, none, none, none, 0, 0⟩ : Record).owner = 7 := by
  have h := C8_owner_silently_dropped ⟨7, "User"⟩ 1
    ⟨none, some true, none, none, none, some 20, []⟩ 5
    [⟨1, "plan", false, 7, none, none, none, none, 0, 0⟩]
    ⟨1, "plan", false, 7, none, none, none, none, 0, 0⟩
    (by decide) (by decide) (by decide) (by decide) (Or.inl (by decide)) (by decide)
  exact ⟨h.1, rfl⟩

/-! ## C5: visibility and ordering of list -/

theorem taskLe_trans : ∀ a b c : Record, taskLe a b = true → taskLe b c = true →
    taskLe a c = true := by
  intro a b c hab hbc
  unfold taskLe at *
  rcases a with ⟨_, _, _, _, _, _, _, pa, ca, _⟩
  rcases b with ⟨_, _, _, _, _, _, _, pb, cb, _⟩
  rcases c with ⟨_, _, _, _, _, _, _, pc, cc, _⟩
  cases pa <;> cases pb <;> cases pc <;>
    simp_all [Bool.or_eq_true, Bool.and_eq_true, decide_eq_true_eq] <;> omega

theorem taskLe_total : ∀ a b : Record, (taskLe a b || taskLe b a) = true := by
  intro a b
  unfold taskLe
  rcases a with ⟨_, _, _, _, _, _, _, pa, ca, _⟩
  rcases b with ⟨_, _, _, _, _, _, _, pb, cb, _⟩
  cases pa <;> cases pb <;>
    simp_all [Bool.or_eq_true, Bool.and_eq_true, decide_eq_true_eq] <;> omega

/-- C5: `getTasks` returns exactly the caller-visible records — all of them
for an admin, exactly those with `owner == requester._id` otherwise — as a
permutation of the store's matching records, sorted by
`(parentTask` ascending, nulls first, `createdAt` ascending)`. -/
theorem C5_visibility_and_order (u : Principal) (s : Store) :
    List.Perm (getTasks u s) (s.filter fun r => isAdmin u || r.owner == u.id)
    ∧ (∀ r, r ∈ getTasks u s ↔ r ∈ s ∧ (isAdmin u = true ∨ r.owner = u.id))
    ∧ (getTasks u s).Pairwise fun a b => taskLe a b = true := by
  have hperm : List.Perm (getTasks u s) (s.filter fun r => isAdmin u || r.owner == u.id) := by
    unfold getTasks
    split
    case isTrue h =>
      have : (s.filter fun r => isAdmin u || r.owner == u.id) = s := by
        apply List.filter_eq_self.mpr
        intro a _
        rw [h]
        simp
      rw [this]
      exact List.mergeSort_perm s taskLe
    case isFalse h =>
      have hb : isAdmin u = false := by
        cases hh : isAdmin u
        · rfl
        · exact absurd hh h
      have : (s.filter fun r => isAdmin u || r.owner == u.id)
           = (s.filter fun r => r.owner == u.id) := by
        apply List.filter_congr
        intro a _
        rw [hb]
        simp
      rw [this]
      exact List.mergeSort_perm _ taskLe
  refine ⟨hperm, ?_, ?_⟩
  · intro r
    rw [hperm.mem_iff, List.mem_filter]
    cases hh : isAdmin u <;> simp [hh]
  · unfold getTasks
    split
    · exact List.sorted_mergeSort taskLe_trans taskLe_total s
    · exact List.sorted_mergeSort taskLe_trans taskLe_total _

/-! ## C4: corrected — create never verifies the parent exists -/

/-- C4 counterexample: with an empty store (no task 99 exists), a user's
create with `parentTask = 99` SUCCEEDS and persists the dangling reference;
the claimed `ParentNotFound` failure does not happen — `createTask` has no
parent existence check at all. -/
theorem C4_counterexample :
    (∀ t ∈ ([] : Store), t.id ≠ 99) ∧
    createTask [10] ⟨10, "User"⟩ ⟨"subtask", none, none, none, none, some 99, none⟩ 1 0 []
      = .ok (⟨1, "subtask", false, 10, none, none, none, some 99, 0, 0⟩,
             [⟨1, "subtask", false, 10, none, none, none, some 99, 0, 0⟩]) ∧
    (⟨1, "subtask", false, 10, none, none, none, some 99, 0, 0⟩ : Record).parentTask = some 99 :=
  ⟨by simp, rfl, rfl⟩

/-- C4 amended: `create` persists `payload.parentTask` without any
existence check: whenever the text validates and owner resolution succeeds,
creation succeeds and the stored record carries the submitted parent id,
even when no record with that id exists in the store. -/
theorem C4_no_parent_existence_check (users : List Nat) (creator : Principal)
    (b : CreatePayload) (newId now : Nat) (s : Store) (p : Nat)
    (hp : b.parentTask = some p)
    (_habsent : ∀ t ∈ s, t.id ≠ p)
    (htext : b.text ≠ "")
    (hres : (isAdmin creator && b.owner.isSome) = true →
        ∃ o, b.owner = some o ∧ users.contains o = true) :
    ∃ r, createTask users creator b newId now s = .ok (r, s ++ [r])
      ∧ r.parentTask = some p := by
  unfold createTask
  cases hc : (isAdmin creator && b.owner.isSome) with
  | false =>
    simp only [Bool.false_eq_true, if_false]
    rw [if_neg htext]
    exact ⟨_, rfl, hp⟩
  | true =>
    obtain ⟨o, ho, hco⟩ := hres hc
    simp only [if_pos rfl, ho, hco, if_true]
    rw [if_neg htext]
    exact ⟨_, rfl, hp⟩

/-- Witness for the amended C4: user 10, parent id 99 absent from the
store. -/
theorem C4_no_parent_existence_check_witness :
    ∃ r, createTask [10] ⟨10, "User"⟩ ⟨"subtask", none, none, none, none, some 99, none⟩ 1 0 []
      = .ok (r, [] ++ [r]) ∧ r.parentTask = some 99 :=
  C4_no_parent_existence_check [10] ⟨10, "User"⟩
    ⟨"subtask", none, none, none, none, some 99, none⟩ 1 0 [] 99
    (by decide) (by simp) (by decide) (fun h => absurd h (by decide))

/-! ## C2: the upward cycle walk -/

/-- C2: with an allow-listed body proposing a (non-self) parent `p`, the
update's fate is decided by the upward walk from `p`: if the walk revisits
the edited task's id the update fails with `CycleError` and the store is
untouched; if it reaches a document with no parent (or a dangling
reference) the update passes the cycle check and saves, so the parent
relation stays a forest. -/
theorem C2_cycle_guard (requester : Principal) (_id : Nat) (b : UpdateBody)
    (fuel : Nat) (s : Store) (task : Record) (p : Nat)
    (hval : isValidOperation b = true)
    (hfetch : fetchTask requester _id s = some task)
    (hp : b.parentTask = some (some p))
    (hne : p ≠ task.id) :
    (walkUp s task.id fuel (s.find? fun r => r.id == p) = some true →
      updateTask requester _id b fuel s = some (.error .CycleError, s))
    ∧ (walkUp s task.id fuel (s.find? fun r => r.id == p) = some false →
        (applyUpdates requester b task).text ≠ "" →
      updateTask requester _id b fuel s
        = some (.ok (applyUpdates requester b task),
                replaceById s task.id (applyUpdates requester b task))) := by
  constructor
  · intro hwalk
    unfold updateTask
    simp [hval, hfetch, hp, hne, hwalk]
  · intro hwalk htext
    rw [updateTask_saves requester _id b fuel s task hval hfetch
          (Or.inr (Or.inr ⟨p, hp, hne, hwalk⟩)),
        saveUpdated_ok requester b task s htext]

/-- Witness for C2: the chain A(1) → B(2) → C(3); setting A's parent to C
walks C, B, A, revisits id 1 and fails with `CycleError`. -/
theorem C2_cycle_guard_witness :
    walkUp
        [⟨1, "A", false, 7, none, none, none, none, 0, 0⟩,
         ⟨2, "B", false, 7, none, none, none, some 1, 1, 1⟩,
         ⟨3, "C", false, 7, none, none, none, some 2, 2, 2⟩] 1 5
        (List.find? (fun r => r.id == 3)
          [⟨1, "A", false, 7, none, none, none, none, 0, 0⟩,
           ⟨2, "B", false, 7, none, none, none, some 1, 1, 1⟩,
           ⟨3, "C", false, 7, none, none, none, some 2, 2, 2⟩]) = some true
    ∧ updateTask ⟨7, "User"⟩ 1 ⟨none, none, none, none, some (some 3), none, []⟩ 5
        [⟨1, "A", false, 7, none, none, none, none, 0, 0⟩,
         ⟨2, "B", false, 7, none, none, none, some 1, 1, 1⟩,
         ⟨3, "C", false, 7, none, none, none, some 2, 2, 2⟩]
      = some (.error .CycleError,
              [⟨1, "A", false, 7, none, none, none, none, 0, 0⟩,
               ⟨2, "B", false, 7, none, none, none, some 1, 1, 1⟩,
               ⟨3, "C", false, 7, none, none, none, some 2, 2, 2⟩]) :=
  ⟨by decide,
    (C2_cycle_guard ⟨7, "User"⟩ 1 ⟨none, none, none, none, some (some 3), none, []⟩ 5
      [⟨1, "A", false, 7, none, none, none, none, 0, 0⟩,
       ⟨2, "B", false, 7, none, none, none, some 1, 1, 1⟩,
       ⟨3, "C", false, 7, none, none, none, some 2, 2, 2⟩]
      ⟨1, "A", false, 7, none, none, none, none, 0, 0⟩ 3
      (by decide) (by decide) (by decide) (by decide)).1 (by decide)⟩

/-! ## C3: corrected — the walk has no bound and can diverge -/

/-- C3 counterexample: on a corrupted store whose records 2 and 3 form a
parent cycle not passing through task 1, updating task 1's parent to 2
never returns, for any amount of fuel: the `while (current)` loop of the
source has no visited-set, node-count or depth bound, so it cannot report
`CycleError` here — contradicting the claim that the walk is bounded and
exceeding the bound yields `CycleError`. -/
theorem C3_counterexample :
    ¬ ∃ fuel res,
      updateTask ⟨9, "Admin"⟩ 1 ⟨none, none, none, none, some (some 2), none, []⟩ fuel
        [⟨1, "A", false, 7, none, none, none, none, 0, 0⟩,
         ⟨2, "B", false, 7, none, none, none, some 3, 1, 1⟩,
         ⟨3, "C", false, 7, none, none, none, some 2, 2, 2⟩] = some res := by
  rintro ⟨fuel, res, h⟩
  have key : ∀ n : Nat,
      walkUp
        [⟨1, "A", false, 7, none, none, none, none, 0, 0⟩,
         ⟨2, "B", false, 7, none, none, none, some 3, 1, 1⟩,
         ⟨3, "C", false, 7, none, none, none, some 2, 2, 2⟩] 1 n
        (some ⟨2, "B", false, 7, none, none, none, some 3, 1, 1⟩) = none
    ∧ walkUp
        [⟨1, "A", false, 7, none, none, none, none, 0, 0⟩,
         ⟨2, "B", false, 7, none, none, none, some 3, 1, 1⟩,
         ⟨3, "C", false, 7, none, none, none, some 2, 2, 2⟩] 1 n
        (some ⟨3, "C", false, 7, none, none, none, some 2, 2, 2⟩) = none := by
    intro n
    induction n with
    | zero => exact ⟨rfl, rfl⟩
    | succ m ih => exact ⟨ih.2, ih.1⟩
  have hstep : updateTask ⟨9, "Admin"⟩ 1 ⟨none, none, none, none, some (some 2), none, []⟩ fuel
        [⟨1, "A", false, 7, none, none, none, none, 0, 0⟩,
         ⟨2, "B", false, 7, none, none, none, some 3, 1, 1⟩,
         ⟨3, "C", false, 7, none, none, none, some 2, 2, 2⟩]
      = match walkUp
          [⟨1, "A", false, 7, none, none, none, none, 0, 0⟩,
           ⟨2, "B", false, 7, none, none, none, some 3, 1, 1⟩,
           ⟨3, "C", false, 7, none, none, none, some 2, 2, 2⟩] 1 fuel
          (some ⟨2, "B", false, 7, none, none, none, some 3, 1, 1⟩) with
        | none => none
        | some true =>
            some (.error .CycleError,
              [⟨1, "A", false, 7, none, none, none, none, 0, 0⟩,
               ⟨2, "B", false, 7, none, none, none, some 3, 1, 1⟩,
               ⟨3, "C", false, 7, none, none, none, some 2, 2, 2⟩])
        | some false =>
            some (saveUpdated ⟨9, "Admin"⟩ ⟨none, none, none, none, some (some 2), none, []⟩
              ⟨1, "A", false, 7, none, none, none, none, 0, 0⟩
              [⟨1, "A", false, 7, none, none, none, none, 0, 0⟩,
               ⟨2, "B", false, 7, none, none, none, some 3, 1, 1⟩,
               ⟨3, "C", false, 7, none, none, none, some 2, 2, 2⟩]) := rfl
  rw [hstep, (key fuel).1] at h
  exact Option.noConfusion h

/-- The walk terminates whenever the visited chain carries a strictly
decreasing rank: `fuel` beyond the rank of the start suffices. -/
theorem walkUp_total (s : Store) (taskId : Nat) (rank : Nat → Nat)
    (hrk : rankHyp rank s) :
    ∀ fuel : Nat, ∀ c : Option Record,
      (c = none ∨ ∃ r, c = some r ∧ r ∈ s ∧ rank r.id < fuel) →
      (walkUp s taskId fuel c).isSome = true := by
  intro fuel
  induction fuel with
  | zero =>
    rintro c (rfl | ⟨r, rfl, hr, hlt⟩)
    · rfl
    · exact absurd hlt (Nat.not_lt_zero _)
  | succ n ih =>
    rintro c (rfl | ⟨r, rfl, hr, hlt⟩)
    · rfl
    · rw [walkUp]
      split
      · rfl
      · apply ih
        cases hpt : r.parentTask with
        | none => exact Or.inl rfl
        | some p =>
          cases hf : s.find? (fun x => x.id == p) with
          | none => exact Or.inl hf
          | some q =>
            refine Or.inr ⟨q, hf, List.mem_of_find?_eq_some hf, ?_⟩
            have hq : q.id = p := by simpa using List.find?_some hf
            have hro := hrk r hr
            rw [rankOk, hpt] at hro
            simp only [decide_eq_true_eq] at hro
            rw [hq]
            omega

/-- C3 amended: the source walk is *unbounded* — there is no record-count or
configured depth cap, and exceeding any bound does not produce `CycleError`
(see the counterexample).  What does hold: on every store whose parent
links admit a strictly decreasing rank (in particular on uncorrupted,
acyclic data), the walk terminates once the fuel exceeds every rank, so
the cycle check always answers on invariant-respecting stores. -/
theorem C3_walk_terminates_on_acyclic (s : Store) (taskId p bound : Nat)
    (rank : Nat → Nat)
    (hrk : rankHyp rank s) (hB : ∀ r ∈ s, rank r.id < bound) :
    ∃ result, walkUp s taskId bound (s.find? fun r => r.id == p) = some result := by
  have h : (walkUp s taskId bound (s.find? fun r => r.id == p)).isSome = true := by
    apply walkUp_total s taskId rank hrk
    cases hf : s.find? (fun r => r.id == p) with
    | none => exact Or.inl rfl
    | some q =>
      exact Or.inr ⟨q, rfl, List.mem_of_find?_eq_some hf,
        hB q (List.mem_of_find?_eq_some hf)⟩
  cases hw : walkUp s taskId bound (s.find? fun r => r.id == p) with
  | none => rw [hw] at h; exact Bool.noConfusion h
  | some b => exact ⟨b, rfl⟩

/-- Witness for the amended C3: on the acyclic chain 1 ← 2 ← 3 the walk
from task 3 terminates with fuel 4 (ranks are the ids, all below 4). -/
theorem C3_walk_terminates_on_acyclic_witness :
    ∃ result, walkUp
      [⟨1, "A", false, 7, none, none, none, none, 0, 0⟩,
       ⟨2, "B", false, 7, none, none, none, some 1, 1, 1⟩,
       ⟨3, "C", false, 7, none, none, none, some 2, 2, 2⟩] 9 4
      (List.find? (fun r => r.id == 3)
        [⟨1, "A", false, 7, none, none, none, none, 0, 0⟩,
         ⟨2, "B", false, 7, none, none, none, some 1, 1, 1⟩,
         ⟨3, "C", false, 7, none, none, none, some 2, 2, 2⟩]) = some result :=
  C3_walk_terminates_on_acyclic
    [⟨1, "A", false, 7, none, none, none, none, 0, 0⟩,
     ⟨2, "B", false, 7, none, none, none, some 1, 1, 1⟩,
     ⟨3, "C", false, 7, none, none, none, some 2, 2, 2⟩] 9 3 4 (fun i => i)
    (by unfold rankHyp; decide) (by decide)

/-! ## C1: the cascade delete — infrastructure lemmas -/

theorem mem_id_unique {s : Store} (h : nodupIds s) {r r' : Record}
    (hr : r ∈ s) (hr' : r' ∈ s) (hid : r.id = r'.id) : r = r' :=
  List.inj_on_of_nodup_map h hr hr' hid

theorem nodupIds_filter {s : Store} (p : Record → Bool) (h : nodupIds s) :
    nodupIds (s.filter p) :=
  List.Nodup.sublist (List.Sublist.map Record.id (List.filter_sublist s)) h

theorem rankHyp_filter {rank : Nat → Nat} {s : Store} (p : Record → Bool)
    (h : rankHyp rank s) : rankHyp rank (s.filter p) :=
  fun r hr => h r (List.mem_of_mem_filter hr)

theorem childStep_mono {fo : Option Nat} {st st' : Store} {a b : Nat}
    (hsub : ∀ r ∈ st', r ∈ st) (h : childStep fo st' a b) : childStep fo st a b := by
  obtain ⟨r, hr, h1, h2, h3⟩ := h
  exact ⟨r, hsub r hr, h1, h2, h3⟩

theorem reaches_mono {fo : Option Nat} {st st' : Store} {a b : Nat}
    (hsub : ∀ r ∈ st', r ∈ st) (h : reaches fo st' a b) : reaches fo st a b :=
  Relation.ReflTransGen.mono (fun _ _ hs => childStep_mono hsub hs) h

theorem cascades_mono {fo : Option Nat} {st st' : Store} {t x : Nat}
    (hsub : ∀ r ∈ st', r ∈ st) (h : cascades fo st' t x) : cascades fo st t x := by
  obtain ⟨hc, r, hr, h1, h2⟩ := h
  exact ⟨reaches_mono hsub hc, r, hsub r hr, h1, h2⟩

theorem childStep_rank {rank : Nat → Nat} {fo : Option Nat} {s : Store} {a b : Nat}
    (hrk : rankHyp rank s) (h : childStep fo s a b) : rank a < rank b := by
  obtain ⟨r, hr, hid, hpt, -⟩ := h
  have hro := hrk r hr
  rw [rankOk, hpt] at hro
  simp only [decide_eq_true_eq] at hro
  rw [← hid]
  exact hro

theorem reaches_rank {rank : Nat → Nat} {fo : Option Nat} {s : Store} {a b : Nat}
    (hrk : rankHyp rank s) (h : reaches fo s a b) : a = b ∨ rank a < rank b := by
  induction h with
  | refl => exact Or.inl rfl
  | tail _ hstep ih =>
    right
    have h2 := childStep_rank hrk hstep
    rcases ih with rfl | h1
    · exact h2
    · omega

theorem back_unique {fo : Option Nat} {s : Store} {m m' x : Nat} (hnd : nodupIds s)
    (h1 : childStep fo s m x) (h2 : childStep fo s m' x) : m = m' := by
  obtain ⟨r, hr, hid, hpt, -⟩ := h1
  obtain ⟨r', hr', hid', hpt', -⟩ := h2
  have heq : r = r' := mem_id_unique hnd hr hr' (hid.trans hid'.symm)
  subst heq
  rw [hpt] at hpt'
  exact Option.some.inj hpt'

theorem chains_comparable {fo : Option Nat} {s : Store} {a b x : Nat} (hnd : nodupIds s)
    (ha : reaches fo s a x) (hb : reaches fo s b x) :
    reaches fo s a b ∨ reaches fo s b a := by
  induction ha with
  | refl => exact Or.inr hb
  | @tail m x' ham hstep ih =>
    rcases Relation.ReflTransGen.cases_tail hb with rfl | ⟨m', hbm', hstep'⟩
    · exact Or.inl (Relation.ReflTransGen.tail ham hstep)
    · have : m' = m := back_unique hnd hstep' hstep
      subst this
      exact ih hbm'

theorem subtree_disjoint_aux {rank : Nat → Nat} {fo : Option Nat} {s : Store} {t c1 c2 : Nat}
    (hnd : nodupIds s) (hrk : rankHyp rank s)
    (h1 : childStep fo s t c1) (h2 : childStep fo s t c2) (hne : c1 ≠ c2)
    (h : reaches fo s c1 c2) : False := by
  rcases Relation.ReflTransGen.cases_tail h with rfl | ⟨m, hm, hstep⟩
  · exact hne rfl
  · have hmt : m = t := back_unique hnd hstep h2
    have hm' : reaches fo s c1 t := hmt ▸ hm
    have ht1 : rank t < rank c1 := childStep_rank hrk h1
    rcases reaches_rank hrk hm' with heq | hlt
    · rw [heq] at ht1
      exact absurd ht1 (lt_irrefl _)
    · omega

theorem subtree_disjoint {rank : Nat → Nat} {fo : Option Nat} {s : Store} {t c1 c2 x : Nat}
    (hnd : nodupIds s) (hrk : rankHyp rank s)
    (h1 : childStep fo s t c1) (h2 : childStep fo s t c2) (hne : c1 ≠ c2)
    (hx1 : reaches fo s c1 x) (hx2 : reaches fo s c2 x) : False := by
  rcases chains_comparable hnd hx1 hx2 with h | h
  · exact subtree_disjoint_aux hnd hrk h1 h2 hne h
  · exact subtree_disjoint_aux hnd hrk h2 h1 (Ne.symm hne) h

theorem reaches_filter {fo : Option Nat} {st : Store} {c x : Nat} {B : List Nat}
    (hB : ∀ z, reaches fo st c z → z ∉ B)
    (h : reaches fo st c x) : reaches fo (st.filter (notRemoved B)) c x := by
  induction h with
  | refl => exact Relation.ReflTransGen.refl
  | @tail m y hm hstep ih =>
    refine Relation.ReflTransGen.tail ih ?_
    obtain ⟨r, hr, hid, hpt, hom⟩ := hstep
    refine ⟨r, ?_, hid, hpt, hom⟩
    rw [List.mem_filter]
    refine ⟨hr, ?_⟩
    unfold notRemoved
    simp only [decide_eq_true_eq]
    rw [hid]
    exact hB y (Relation.ReflTransGen.tail hm ⟨r, hr, hid, hpt, hom⟩)

theorem eraseP_eq_filter {l : Store} {p : Record → Bool} {i : Nat}
    (hnd : nodupIds l) (hp : ∀ r, p r = true → r.id = i) :
    l.eraseP p = l.filter fun r => !(p r) := by
  induction l with
  | nil => rfl
  | cons h t ih =>
    have hnd' : (h.id ∉ t.map Record.id) ∧ nodupIds t := by
      have := hnd
      unfold nodupIds at this
      rw [List.map_cons, List.nodup_cons] at this
      exact this
    rw [List.eraseP_cons, List.filter_cons]
    cases hph : p h with
    | false =>
      simp only [hph, cond_false, Bool.not_false, if_true]
      rw [ih hnd'.2]
    | true =>
      simp only [hph, cond_true, Bool.not_true, Bool.false_eq_true, if_false]
      refine (List.filter_eq_self.mpr ?_).symm
      intro r hr
      cases hpr : p r with
      | false => simp [hpr]
      | true =>
        exfalso
        have : r.id = h.id := (hp r hpr).trans (hp h hph).symm
        exact hnd'.1 (this ▸ List.mem_map_of_mem Record.id hr)

theorem find?_eq_some_of_unique {s : Store} {p : Record → Bool} {r : Record}
    (hnd : nodupIds s) (hr : r ∈ s) (hpr : p r = true)
    (hid : ∀ a, p a = true → a.id = r.id) :
    s.find? p = some r := by
  cases hf : s.find? p with
  | none =>
    rw [List.find?_eq_none] at hf
    exact absurd hpr (hf r hr)
  | some a =>
    have ha := List.find?_some hf
    have ham := List.mem_of_find?_eq_some hf
    rw [mem_id_unique hnd ham hr (hid a ha)]

theorem foldl_fod_none (fo : Option Nat) (fuel : Nat) : ∀ cs : List Record,
    cs.foldl (fun acc c => acc.bind fun p =>
        (fodDelete fuel fo c.id p.2).map fun q => (p.1 ++ q.2.1, q.2.2)) none = none := by
  intro cs
  induction cs with
  | nil => rfl
  | cons c cs ih => rw [List.foldl_cons]; exact ih

theorem foldl_fod_eq (fo : Option Nat) (fuel : Nat) : ∀ (cs : List Record) (tr0 : List Nat) (st : Store),
    cs.foldl (fun acc c => acc.bind fun p =>
        (fodDelete fuel fo c.id p.2).map fun q => (p.1 ++ q.2.1, q.2.2)) (some (tr0, st))
      = (fodChildren fo fuel cs st).map fun q => (tr0 ++ q.1, q.2) := by
  intro cs
  induction cs with
  | nil => intro tr0 st; simp [fodChildren]
  | cons c cs ih =>
    intro tr0 st
    rw [List.foldl_cons, fodChildren]
    rw [show ((some (tr0, st)).bind fun p =>
          (fodDelete fuel fo c.id p.2).map fun q => (p.1 ++ q.2.1, q.2.2))
        = (fodDelete fuel fo c.id st).map fun q => (tr0 ++ q.2.1, q.2.2) from rfl]
    cases hd : fodDelete fuel fo c.id st with
    | none => exact foldl_fod_none fo fuel cs
    | some q =>
      obtain ⟨d, tr1, st1⟩ := q
      show List.foldl (fun acc c => acc.bind fun p =>
            (fodDelete fuel fo c.id p.2).map fun q => (p.1 ++ q.2.1, q.2.2))
          (some (tr0 ++ tr1, st1)) cs
        = ((fodChildren fo fuel cs st1).map fun p => (tr1 ++ p.1, p.2)).map
            fun q => (tr0 ++ q.1, q.2)
      rw [ih (tr0 ++ tr1) st1]
      cases fodChildren fo fuel cs st1 with
      | none => rfl
      | some q2 => simp [List.append_assoc]

/-- `fodDelete` at positive fuel, stated through the explicit child
recursion. -/
theorem fodDelete_succ (fuel : Nat) (fo : Option Nat) (tid : Nat) (s : Store) :
    fodDelete (fuel+1) fo tid s
      = match fodChildren fo fuel
            (s.filter fun r => r.parentTask == some tid && ownerMatch fo r) s with
        | none => none
        | some (tr, s1) =>
          match s1.find? (fun r => r.id == tid && ownerMatch fo r) with
          | some doc =>
              some (some doc, tr ++ [tid], s1.eraseP fun r => r.id == tid && ownerMatch fo r)
          | none => some (none, tr, s1) := by
  rw [fodDelete]
  rw [foldl_fod_eq]
  cases fodChildren fo fuel (s.filter fun r => r.parentTask == some tid && ownerMatch fo r) s with
  | none => rfl
  | some q =>
    obtain ⟨tr, s1⟩ := q
    simp only [Option.map_some, List.nil_append]
    rfl

/-- The child loop of the cascade hook satisfies `LoopSpec`, assuming every
single-node delete at the remaining fuel satisfies `NodeSpec`. -/
theorem fodChildren_spec (fo : Option Nat) (rank : Nat → Nat) (fuel : Nat)
    (IH : ∀ tid st doc tr st', nodupIds st → rankHyp rank st →
      fodDelete fuel fo tid st = some (doc, tr, st') → NodeSpec fo tid st doc tr st') :
    ∀ (cs : List Record) (st : Store) (tr : List Nat) (st' : Store),
      nodupIds st → rankHyp rank st →
      cs.Pairwise (fun c c' => ∀ x, reaches fo st c.id x → reaches fo st c'.id x → False) →
      fodChildren fo fuel cs st = some (tr, st') →
      LoopSpec fo cs st tr st' := by
  intro cs
  induction cs with
  | nil =>
    intro st tr st' hnd hrk hdisj h
    rw [fodChildren] at h
    simp only [Option.some.injEq, Prod.mk.injEq] at h
    obtain ⟨rfl, rfl⟩ := h
    refine ⟨?_, by simp, by simp⟩
    refine (List.filter_eq_self.mpr ?_).symm
    intro a _
    unfold notRemoved
    simp
  | cons c cs ihcs =>
    intro st tr st' hnd hrk hdisj h
    rw [fodChildren] at h
    cases hd : fodDelete fuel fo c.id st with
    | none =>
      simp only [hd] at h
      exact Option.noConfusion h
    | some q =>
      obtain ⟨d, tr1, st1⟩ := q
      simp only [hd] at h
      cases hrest : fodChildren fo fuel cs st1 with
      | none =>
        simp only [hrest, Option.map_none] at h
        exact Option.noConfusion h
      | some q2 =>
        obtain ⟨tr2, st2⟩ := q2
        simp only [hrest, Option.map_some, Option.some.injEq, Prod.mk.injEq] at h
        obtain ⟨rfl, rfl⟩ := h
        obtain ⟨hst1, hmem1, hpw1, -⟩ := IH c.id st d tr1 st1 hnd hrk hd
        have hsub1 : ∀ r ∈ st1, r ∈ st := by
          intro r hr
          rw [hst1] at hr
          exact List.mem_of_mem_filter hr
        have hnd1 : nodupIds st1 := by rw [hst1]; exact nodupIds_filter _ hnd
        have hrk1 : rankHyp rank st1 := by rw [hst1]; exact rankHyp_filter _ hrk
        rw [List.pairwise_cons] at hdisj
        obtain ⟨hdhead, hdtail⟩ := hdisj
        have hdtail1 : cs.Pairwise (fun a b => ∀ x,
            reaches fo st1 a.id x → reaches fo st1 b.id x → False) := by
          refine hdtail.imp ?_
          intro a b hab x hax hbx
          exact hab x (reaches_mono hsub1 hax) (reaches_mono hsub1 hbx)
        obtain ⟨hst2, hmem2, hpw2⟩ := ihcs st1 tr2 st2 hnd1 hrk1 hdtail1 hrest
        have hguard : ∀ c' ∈ cs, ∀ z, reaches fo st c'.id z → z ∉ tr1 := by
          intro c' hc' z hz hzin
          exact hdhead c' hc' z ((hmem1 z).mp hzin).1 hz
        have hlift : ∀ c' ∈ cs, ∀ x, cascades fo st c'.id x → cascades fo st1 c'.id x := by
          intro c' hc' x hx
          obtain ⟨hchain, r, hr, hid, hom⟩ := hx
          have hB := hguard c' hc'
          refine ⟨by rw [hst1]; exact reaches_filter hB hchain, r, ?_, hid, hom⟩
          rw [hst1, List.mem_filter]
          refine ⟨hr, ?_⟩
          unfold notRemoved
          simp only [decide_eq_true_eq]
          rw [hid]
          exact hB x hchain
        refine ⟨?_, ?_, ?_⟩
        · rw [hst2, hst1, List.filter_filter]
          apply List.filter_congr
          intro r _
          unfold notRemoved
          by_cases h1 : r.id ∈ tr1 <;> by_cases h2 : r.id ∈ tr2 <;>
            simp [h1, h2, List.mem_append]
        · intro x
          rw [List.mem_append]
          constructor
          · rintro (hx | hx)
            · exact ⟨c, List.mem_cons_self c cs, (hmem1 x).mp hx⟩
            · obtain ⟨c', hc', hcas⟩ := (hmem2 x).mp hx
              exact ⟨c', List.mem_cons_of_mem c hc', cascades_mono hsub1 hcas⟩
          · rintro ⟨c', hc', hcas⟩
            rcases List.mem_cons.mp hc' with rfl | hc'cs
            · exact Or.inl ((hmem1 x).mpr hcas)
            · exact Or.inr ((hmem2 x).mpr ⟨c', hc'cs, hlift c' hc'cs x hcas⟩)
        · rw [List.pairwise_append]
          refine ⟨hpw1, ?_, ?_⟩
          · refine hpw2.imp_of_mem ?_
            intro x y hx hy hR hcon
            apply hR
            obtain ⟨hreach, hne⟩ := hcon
            refine ⟨?_, hne⟩
            obtain ⟨c', hc', hcasx⟩ := (hmem2 x).mp hx
            have hcx : reaches fo st c'.id x := reaches_mono hsub1 hcasx.1
            have hB : ∀ z, reaches fo st x z → z ∉ tr1 := by
              intro z hz hzin
              exact hdhead c' hc' z ((hmem1 z).mp hzin).1 (hcx.trans hz)
            rw [hst1]
            exact reaches_filter hB hreach
          · intro x hx y hy
            rintro ⟨hreach, -⟩
            obtain ⟨c', hc', hcasy⟩ := (hmem2 y).mp hy
            have hcy : reaches fo st c'.id y := reaches_mono hsub1 hcasy.1
            have hcx : reaches fo st c.id x := ((hmem1 x).mp hx).1
            exact hdhead c' hc' y (hcx.trans hreach) hcy

/-- One `findOneAndDelete` run (the hook included) satisfies `NodeSpec` on
every store with unique ids and rank-decreasing (acyclic) parent links,
whenever it completes within its fuel. -/
theorem fodDelete_spec (fo : Option Nat) (rank : Nat → Nat) :
    ∀ (fuel tid : Nat) (st : Store) (doc : Option Record) (tr : List Nat) (st' : Store),
      nodupIds st → rankHyp rank st →
      fodDelete fuel fo tid st = some (doc, tr, st') →
      NodeSpec fo tid st doc tr st' := by
  intro fuel
  induction fuel with
  | zero =>
    intro tid st doc tr st' _ _ h
    rw [fodDelete] at h
    exact Option.noConfusion h
  | succ n ihf =>
    intro tid st doc tr st' hnd hrk h
    rw [fodDelete_succ] at h
    cases hc : fodChildren fo n
        (st.filter fun r => r.parentTask == some tid && ownerMatch fo r) st with
    | none =>
      simp only [hc] at h
      exact Option.noConfusion h
    | some q =>
      obtain ⟨trc, s1⟩ := q
      simp only [hc] at h
      have hchstep : ∀ c ∈ (st.filter fun r => r.parentTask == some tid && ownerMatch fo r),
          childStep fo st tid c.id := by
        intro c hcin
        rw [List.mem_filter, Bool.and_eq_true] at hcin
        exact ⟨c, hcin.1, rfl, by simpa using hcin.2.1, hcin.2.2⟩
      have hdisj : (st.filter fun r => r.parentTask == some tid && ownerMatch fo r).Pairwise
          (fun a b => ∀ x, reaches fo st a.id x → reaches fo st b.id x → False) := by
        have hidne : (st.filter fun r => r.parentTask == some tid && ownerMatch fo r).Pairwise
            (fun a b => a.id ≠ b.id) := by
          have hndf := nodupIds_filter
            (fun r => r.parentTask == some tid && ownerMatch fo r) hnd
          unfold nodupIds at hndf
          exact List.pairwise_map.mp hndf
        refine hidne.imp_of_mem ?_
        intro a b ha hb hne x hax hbx
        exact subtree_disjoint hnd hrk (hchstep a ha) (hchstep b hb) hne hax hbx
      obtain ⟨hs1, hmemc, hpwc⟩ :=
        fodChildren_spec fo rank n ihf _ st trc s1 hnd hrk hdisj hc
      have htid : tid ∉ trc := by
        intro hmem
        obtain ⟨cx, hcx, hcas⟩ := (hmemc tid).mp hmem
        have h1 : rank tid < rank cx.id := childStep_rank hrk (hchstep cx hcx)
        rcases reaches_rank hrk hcas.1 with heq | hlt
        · rw [heq] at h1
          exact absurd h1 (lt_irrefl _)
        · omega
      have hnds1 : nodupIds s1 := by rw [hs1]; exact nodupIds_filter _ hnd
      have hfind : s1.find? (fun r => r.id == tid && ownerMatch fo r)
          = st.find? (fun r => r.id == tid && ownerMatch fo r) := by
        cases hf0 : st.find? (fun r => r.id == tid && ownerMatch fo r) with
        | none =>
          rw [List.find?_eq_none] at hf0
          rw [List.find?_eq_none]
          intro a ha
          refine hf0 a ?_
          rw [hs1] at ha
          exact List.mem_of_mem_filter ha
        | some dfound =>
          have hdf := List.find?_some hf0
          have hdfm := List.mem_of_find?_eq_some hf0
          rw [Bool.and_eq_true] at hdf
          have hdfid : dfound.id = tid := by simpa using hdf.1
          apply find?_eq_some_of_unique hnds1
          · rw [hs1, List.mem_filter]
            refine ⟨hdfm, ?_⟩
            unfold notRemoved
            simp only [decide_eq_true_eq]
            rw [hdfid]
            exact htid
          · rw [Bool.and_eq_true]
            exact ⟨by simp [hdfid], hdf.2⟩
          · intro a ha
            rw [Bool.and_eq_true] at ha
            have : a.id = tid := by simpa using ha.1
            rw [this, hdfid]
      rw [hfind] at h
      cases hf : st.find? (fun r => r.id == tid && ownerMatch fo r) with
      | some dfound =>
        simp only [hf, Option.some.injEq, Prod.mk.injEq] at h
        obtain ⟨rfl, rfl, rfl⟩ := h
        have hdf := List.find?_some hf
        have hdfm := List.mem_of_find?_eq_some hf
        rw [Bool.and_eq_true] at hdf
        have hdfid : dfound.id = tid := by simpa using hdf.1
        refine ⟨?_, ?_, ?_, by rw [hf]⟩
        · have herase : s1.eraseP (fun r => r.id == tid && ownerMatch fo r)
              = s1.filter fun r => !(r.id == tid && ownerMatch fo r) := by
            apply eraseP_eq_filter hnds1
            intro r hr
            rw [Bool.and_eq_true] at hr
            simpa using hr.1
          rw [herase, hs1, List.filter_filter]
          apply List.filter_congr
          intro r hrst
          unfold notRemoved
          by_cases hid : r.id = tid
          · have hrd : r = dfound := mem_id_unique hnd hrst hdfm (by rw [hid, hdfid])
            have hom : ownerMatch fo r = true := by rw [hrd]; exact hdf.2
            simp [hid, hom, List.mem_append]
          · have hb : (r.id == tid) = false := by simp [hid]
            simp [hb, hid, List.mem_append]
        · intro x
          rw [List.mem_append, List.mem_singleton]
          constructor
          · rintro (hx | rfl)
            · obtain ⟨cx, hcx, hchain, r, hr, hidr, homr⟩ := (hmemc x).mp hx
              exact ⟨Relation.ReflTransGen.head (hchstep cx hcx) hchain, r, hr, hidr, homr⟩
            · exact ⟨Relation.ReflTransGen.refl, dfound, hdfm, hdfid, hdf.2⟩
          · rintro ⟨hchain, r, hr, hidr, homr⟩
            rcases Relation.ReflTransGen.cases_head hchain with heq | ⟨c0, hstep0, hchain0⟩
            · exact Or.inr heq.symm
            · left
              obtain ⟨rc, hrc, hrcid, hrcpt, hrcom⟩ := hstep0
              apply (hmemc x).mpr
              refine ⟨rc, ?_, ?_, r, hr, hidr, homr⟩
              · rw [List.mem_filter, Bool.and_eq_true]
                exact ⟨hrc, by simp [hrcpt], hrcom⟩
              · rw [hrcid]
                exact hchain0
        · rw [List.pairwise_append]
          refine ⟨hpwc, by simp, ?_⟩
          intro x hx y hy
          rw [List.mem_singleton] at hy
          rintro ⟨hreach, hne⟩
          rw [hy] at hreach hne
          obtain ⟨cx, hcx, hcas⟩ := (hmemc x).mp hx
          have h1 : reaches fo st tid x :=
            Relation.ReflTransGen.head (hchstep cx hcx) hcas.1
          rcases reaches_rank hrk h1 with heq | hlt1
          · exact hne heq.symm
          · rcases reaches_rank hrk hreach with heq | hlt2
            · exact hne heq
            · omega
      | none =>
        simp only [hf, Option.some.injEq, Prod.mk.injEq] at h
        obtain ⟨rfl, rfl, rfl⟩ := h
        refine ⟨hs1, ?_, hpwc, by rw [hf]⟩
        intro x
        constructor
        · intro hx
          obtain ⟨cx, hcx, hchain, r, hr, hidr, homr⟩ := (hmemc x).mp hx
          exact ⟨Relation.ReflTransGen.head (hchstep cx hcx) hchain, r, hr, hidr, homr⟩
        · rintro ⟨hchain, r, hr, hidr, homr⟩
          rcases Relation.ReflTransGen.cases_head hchain with heq | ⟨c0, hstep0, hchain0⟩
          · exfalso
            rw [List.find?_eq_none] at hf
            refine hf r hr ?_
            rw [Bool.and_eq_true]
            refine ⟨?_, homr⟩
            rw [hidr, ← heq]
            simp
          · obtain ⟨rc, hrc, hrcid, hrcpt, hrcom⟩ := hstep0
            apply (hmemc x).mpr
            refine ⟨rc, ?_, ?_, r, hr, hidr, homr⟩
            · rw [List.mem_filter, Bool.and_eq_true]
              exact ⟨hrc, by simp [hrcpt], hrcom⟩
            · rw [hrcid]
              exact hchain0

/-- C1: on a store with unique ids and acyclic parent links, an authorised
`deleteTask` (admin, or owner for the user path) that completes removes the
root together with exactly its owner-scoped descendant closure: the trace
of removed ids is precisely the `cascades` closure of the root, the
resulting store keeps exactly the untraced records, no record is removed
after one of its own descendants (depth-first, root last in particular),
and `getTaskById` on the root or any cascaded descendant afterwards
returns NotFound, for every principal. -/
theorem C1_cascade_delete (requester : Principal) (s : Store) (R : Record)
    (rank : Nat → Nat) (fuel : Nat) (doc : Option Record) (tr : List Nat) (s' : Store)
    (hnd : nodupIds s) (hrk : rankHyp rank s)
    (hR : R ∈ s) (hmatch : ownerMatch (ownerFilter requester) R = true)
    (hrun : fodDelete fuel (ownerFilter requester) R.id s = some (doc, tr, s')) :
    deleteTask requester R.id fuel s = some (.ok R, s')
    ∧ R.id ∈ tr
    ∧ (∀ x, x ∈ tr ↔ cascades (ownerFilter requester) s R.id x)
    ∧ (∀ r, r ∈ s' ↔ r ∈ s ∧ r.id ∉ tr)
    ∧ tr.Pairwise (fun x y => ¬ (reaches (ownerFilter requester) s x y ∧ x ≠ y))
    ∧ (∀ p' : Principal, ∀ x ∈ tr, getTaskById p' x s' = none) := by
  obtain ⟨hs', hmem, hpw, hdoc⟩ :=
    fodDelete_spec (ownerFilter requester) rank fuel R.id s doc tr s' hnd hrk hrun
  have hdocR : doc = some R := by
    rw [hdoc]
    apply find?_eq_some_of_unique hnd hR
    · rw [Bool.and_eq_true]
      exact ⟨by simp, hmatch⟩
    · intro a ha
      rw [Bool.and_eq_true] at ha
      simpa using ha.1
  subst hdocR
  have hmemS : ∀ r : Record, r ∈ s' ↔ r ∈ s ∧ r.id ∉ tr := by
    intro r
    rw [hs', List.mem_filter]
    unfold notRemoved
    simp
  refine ⟨?_, ?_, hmem, hmemS, hpw, ?_⟩
  · rw [deleteTask, hrun]
  · exact (hmem R.id).mpr ⟨Relation.ReflTransGen.refl, R, hR, rfl, hmatch⟩
  · intro p' x hx
    have hnone : ∀ a ∈ s', a.id ≠ x := by
      intro a ha hax
      exact ((hmemS a).mp ha).2 (by rw [hax]; exact hx)
    unfold getTaskById
    split
    · rw [List.find?_eq_none]
      intro a ha hpa
      exact hnone a ha (by simpa using hpa)
    · rw [List.find?_eq_none]
      intro a ha hpa
      rw [Bool.and_eq_true] at hpa
      exact hnone a ha (by simpa using hpa.1)

/-- Witness for C1: the P5 scenario — R(1) with child R1(2) and grandchild
R2(3); an admin delete of R removes all three (trace `[3, 2, 1]`: leaves
first, root last), and `get` afterwards returns NotFound. -/
theorem C1_cascade_delete_witness :
    deleteTask ⟨9, "Admin"⟩ 1 5
        [⟨1, "R", false, 7, none, none, none, none, 0, 0⟩,
         ⟨2, "R1", false, 7, none, none, none, some 1, 1, 1⟩,
         ⟨3, "R2", false, 7, none, none, none, some 2, 2, 2⟩]
      = some (.ok ⟨1, "R", false, 7, none, none, none, none, 0, 0⟩, [])
    ∧ getTaskById ⟨9, "Admin"⟩ 3 [] = none
    ∧ getTaskById ⟨7, "User"⟩ 2 [] = none := by
  have h := C1_cascade_delete ⟨9, "Admin"⟩
    [⟨1, "R", false, 7, none, none, none, none, 0, 0⟩,
     ⟨2, "R1", false, 7, none, none, none, some 1, 1, 1⟩,
     ⟨3, "R2", false, 7, none, none, none, some 2, 2, 2⟩]
    ⟨1, "R", false, 7, none, none, none, none, 0, 0⟩
    (fun i => i) 5 (some ⟨1, "R", false, 7, none, none, none, none, 0, 0⟩) [3, 2, 1] []
    (by unfold nodupIds; decide) (by unfold rankHyp; decide) (by decide) (by decide)
    (by decide)
  exact ⟨h.1, h.2.2.2.2.2 ⟨9, "Admin"⟩ 3 (by decide), h.2.2.2.2.2 ⟨7, "User"⟩ 2 (by decide)⟩

end TodoApp
